import Mathlib

/-!
Verification development for byte.py, a byte-level convolutional text
autoencoder.  The definitions below are a shallow embedding of the script:
tensor computations are modelled by their shape dynamics where a claim is
about shapes, and by lists of exact rationals where a claim is about
masking and aggregation arithmetic; the per-position negative
log-softmax term of the cross-entropy (a transcendental real) is kept as
an abstract parameter, while the ignore-index structure around it is
modelled exactly.  Randomness sources (the numpy global generator) are
threaded explicitly as state.
-/

/-- End-of-sequence symbol, UTF8File.EOS in the source. -/
def eos_sym : Nat := 0

/-- Padding symbol, UTF8File.EMPTY in the source. -/
def pad_sym : Nat := 7

/-- ByteCNNEncoder.num_recurrences: from the trailing dimension L it takes
the truncated base-2 logarithm and asserts that it is exact, so it yields
the logarithm on exact powers of two and fails otherwise.  The numpy log2
is modelled as exact real logarithm (floating point is not modelled). -/
def num_recurrences (L : Nat) : Option Nat :=
  let r := Nat.log2 L
  if 2 ^ r = L then some r else none

/-- Per-line byte packing performed in UTF8File.__init__: the stripped
content bytes are appended with EOS and right-padded with EMPTY up to
2 raised to the ceiling of the base-2 logarithm of the length. -/
def pad_line (content : List Nat) : List Nat :=
  let bytes1 := content ++ [eos_sym]
  bytes1 ++ List.replicate (2 ^ Nat.clog 2 bytes1.length - bytes1.length) pad_sym

/-- Property that every PAD symbol in a stored sequence occurs strictly
after some EOS symbol. -/
def padOnlyAfterEos (xs : List Nat) : Prop :=
  ∀ i, xs.get? i = some pad_sym → ∃ j, j < i ∧ xs.get? j = some eos_sym

lemma hundred_not_pow2 : ∀ k : Nat, (100 : Nat) ≠ 2 ^ k := by
  intro k h
  rcases le_or_lt k 6 with hk | hk
  · have h64 : 2 ^ k ≤ 2 ^ 6 := Nat.pow_le_pow_right (by norm_num) hk
    omega
  · have h128 : 2 ^ 7 ≤ 2 ^ k := Nat.pow_le_pow_right (by norm_num) hk
    omega

/-- C2: num_recurrences returns log2 L exactly when L is a power of two,
and fails (returns none) whenever L is not a power of two. -/
theorem num_recurrences_spec (L r : Nat) :
    (L = 2 ^ r → num_recurrences L = some r) ∧
    ((∀ k, L ≠ 2 ^ k) → num_recurrences L = none) := by
  constructor
  · rintro rfl
    have hlog : Nat.log2 (2 ^ r) = r := by
      rw [Nat.log2_eq_log_two]
      exact Nat.log_pow (by norm_num) r
    simp [num_recurrences, hlog]
  · intro h
    have hne : 2 ^ Nat.log2 L ≠ L := fun hc => h (Nat.log2 L) hc.symm
    simp [num_recurrences, hne]

theorem num_recurrences_spec_witness :
    num_recurrences 16 = some 4 ∧ num_recurrences 100 = none :=
  ⟨(num_recurrences_spec 16 4).1 (by norm_num),
   (num_recurrences_spec 100 0).2 hundred_not_pow2⟩

/-- C5 counterexample: a line whose content bytes already contain the PAD
value 7 (the BEL character) yields a stored sequence in which PAD appears
before EOS, refuting the unconditional claim. -/
theorem pad_before_eos_counterexample : ¬ padOnlyAfterEos (pad_line [7]) := by
  intro h
  have h0 : (pad_line [7]).get? 0 = some pad_sym := by decide
  rcases h 0 h0 with ⟨j, hj, _⟩
  omega

/-- C5 (amended): the stored sequence has length exactly 2 to the ceiling
log of the content length plus one, that length is a power of two, at
least content length plus one, minimal among powers of two above it, and,
provided the content itself does not contain the PAD value, every PAD
occurs after an EOS. -/
theorem pad_line_spec (content : List Nat) :
    (pad_line content).length = 2 ^ Nat.clog 2 (content.length + 1) ∧
    content.length + 1 ≤ (pad_line content).length ∧
    (∃ k, (pad_line content).length = 2 ^ k) ∧
    (∀ m, content.length + 1 ≤ 2 ^ m → (pad_line content).length ≤ 2 ^ m) ∧
    (pad_sym ∉ content → padOnlyAfterEos (pad_line content)) := by
  have hlen1 : (content ++ [eos_sym]).length = content.length + 1 := by
    simp
  have hle : content.length + 1 ≤ 2 ^ Nat.clog 2 (content.length + 1) :=
    Nat.le_pow_clog (by norm_num) _
  have hlen : (pad_line content).length = 2 ^ Nat.clog 2 (content.length + 1) := by
    simp only [pad_line, List.length_append, List.length_replicate, hlen1]
    omega
  refine ⟨hlen, by omega, ⟨_, hlen⟩, ?_, ?_⟩
  · intro m hm
    rw [hlen]
    have := (Nat.le_pow_iff_clog_le (b := 2) (by norm_num)).1 hm
    exact Nat.pow_le_pow_right (by norm_num) this
  · intro hpad i hi
    by_cases hlt : i < content.length
    · exfalso
      have : (pad_line content).get? i = content.get? i := by
        simp only [pad_line]
        rw [List.append_assoc, List.get?_append]
        exact hlt
      rw [this] at hi
      exact hpad (List.get?_mem hi)
    · by_cases heq : i = content.length
      · exfalso
        subst heq
        have : (pad_line content).get? content.length = some eos_sym := by
          simp only [pad_line]
          rw [List.append_assoc, List.get?_append_right (le_refl _)]
          simp
        rw [this] at hi
        simp [eos_sym, pad_sym] at hi
      · refine ⟨content.length, by omega, ?_⟩
        simp only [pad_line]
        rw [List.append_assoc, List.get?_append_right (le_refl _)]
        simp

theorem pad_line_spec_witness :
    pad_sym ∉ [104, 105] ∧
    (pad_line [104, 105]).length = 2 ^ Nat.clog 2 3 ∧
    padOnlyAfterEos (pad_line [104, 105]) :=
  ⟨by decide, (pad_line_spec [104, 105]).1,
   (pad_line_spec [104, 105]).2.2.2.2 (by decide)⟩

/-- Outcome of ByteCNN.load_model on a parsed descriptor. -/
inductive LoadOutcome
  | ok
  | unknown_params
  | class_mismatch
deriving DecidableEq

/-- Deletion of a key from the descriptor dictionary (del p[k]). -/
def dict_del (p : List (String × String)) (k : String) : List (String × String) :=
  p.filter (fun kv => kv.1 ≠ k)

/-- Lookup in a defaultdict of str: a missing key yields the empty string. -/
def dict_get_default (p : List (String × String)) (k : String) : String :=
  ((p.find? (fun kv => kv.1 = k)).map Prod.snd).getD ""

/-- ByteCNN.load_model descriptor handling: read model_class and
model_kwargs, delete both keys, fail on leftover keys, then assert that
the recorded class name equals ByteCNN.  The assert reads p with the
model_class key already deleted, so the defaultdict yields the empty
string in the comparison. -/
def load_model (desc : List (String × String)) : LoadOutcome :=
  let p1 := dict_del desc "model_class"
  let p2 := dict_del p1 "model_kwargs"
  if p2.length > 0 then .unknown_params
  else if dict_get_default p2 "model_class" = "ByteCNN" then .ok
  else .class_mismatch

lemma find?_dict_del_self (l : List (String × String)) (k : String) :
    (dict_del l k).find? (fun kv => kv.1 = k) = none := by
  rw [List.find?_eq_none]
  intro kv hkv
  have := List.of_mem_filter hkv
  simpa using this

lemma find?_dict_del_sub (l : List (String × String)) (k k2 : String)
    (h : l.find? (fun kv => kv.1 = k) = none) :
    (dict_del l k2).find? (fun kv => kv.1 = k) = none := by
  rw [List.find?_eq_none] at h ⊢
  intro kv hkv
  exact h kv (List.mem_of_mem_filter hkv)

/-- C3: ByteCNN.load_model never succeeds, because the class-name check is
performed after the model_class key has been deleted; in particular a
well-formed descriptor naming ByteCNN is rejected with the class-mismatch
assertion. -/
theorem load_model_never_succeeds :
    load_model [("model_class", "ByteCNN"), ("model_kwargs", "")] =
      LoadOutcome.class_mismatch ∧
    ∀ desc, load_model desc ≠ LoadOutcome.ok := by
  constructor
  · decide
  · intro desc
    unfold load_model
    have h1 := find?_dict_del_self desc "model_class"
    have h2 := find?_dict_del_sub (dict_del desc "model_class")
      "model_class" "model_kwargs" h1
    have hget : dict_get_default
        (dict_del (dict_del desc "model_class") "model_kwargs")
        "model_class" = "" := by
      simp [dict_get_default, h2]
    by_cases hlen :
        (dict_del (dict_del desc "model_class") "model_kwargs").length > 0
    · simp [hlen]
    · simp [hlen, hget]

/-- Python chr on a byte value. -/
def py_chr (c : Nat) : Char := Char.ofNat c

/-- Python repr of a text string, modelled for strings of printable
characters: the string is wrapped in single quotes (double quotes when it
contains a single quote but no double quote) and quote or backslash
characters are escaped.  Control-character hex escapes are not modelled;
the inputs below stay in the printable range. -/
def py_repr (s : List Char) : String :=
  let hasSq := s.contains (Char.ofNat 39)
  let hasDq := s.contains (Char.ofNat 34)
  let q := if hasSq && !hasDq then Char.ofNat 34 else Char.ofNat 39
  String.mk (q :: (s.bind
    (fun c => if c = q ∨ c = Char.ofNat 92 then [Char.ofNat 92, c] else [c])
    ++ [q]))

/-- Truncation of a predicted byte sequence at the first predicted EOS, as
in ByteCNN.try_on: pred up to index of EOS when EOS occurs, else pred. -/
def trunc_at_eos (pred : List Nat) : List Nat :=
  if eos_sym ∈ pred then pred.take (pred.indexOf eos_sym) else pred

/-- Rendering of one predicted sequence in ByteCNN.try_on: truncate at the
first EOS, map chr over the bytes, and take the Python repr. -/
def try_on_decode (pred : List Nat) : String :=
  py_repr ((trunc_at_eos pred).map py_chr)

lemma dropWhile_head_false (p : α → Bool) :
    ∀ (l : List α) (h : α) (t : List α), l.dropWhile p = h :: t → p h = false := by
  intro l
  induction l with
  | nil =>
    intro h t hd
    simp [List.dropWhile] at hd
  | cons a l ih =>
    intro h t hd
    by_cases hp : p a
    · simp only [List.dropWhile_cons, if_pos hp] at hd
      exact ih h t hd
    · simp only [List.dropWhile_cons, if_neg hp] at hd
      obtain ⟨rfl, rfl⟩ := List.cons.injEq .. ▸ hd
      simpa using hp

lemma trunc_at_eos_eq_takeWhile (pred : List Nat) :
    trunc_at_eos pred = pred.takeWhile (fun c => c ≠ eos_sym) := by
  induction pred with
  | nil => rfl
  | cons a t ih =>
    by_cases ha : a = eos_sym
    · subst ha
      have hl : trunc_at_eos (eos_sym :: t) = [] := by
        simp [trunc_at_eos, List.indexOf_cons_self]
      rw [hl]
      simp [List.takeWhile_cons]
    · by_cases hmem : eos_sym ∈ t
      · have hmem2 : eos_sym ∈ a :: t := List.mem_cons_of_mem a hmem
        have hbeq : (a == eos_sym) = false := by
          simp [ha]
        have hidx : (a :: t).indexOf eos_sym = t.indexOf eos_sym + 1 := by
          rw [List.indexOf_cons, hbeq]
          rfl
        simp only [trunc_at_eos, if_pos hmem2, if_pos hmem] at ih ⊢
        rw [hidx, List.take_succ_cons, List.takeWhile_cons]
        simp [ha, ih]
      · have hmem2 : eos_sym ∉ a :: t := by
          intro hc
          rcases List.mem_cons.1 hc with hc | hc
          · exact ha hc.symm
          · exact hmem hc
        simp only [trunc_at_eos, if_neg hmem2]
        rw [eq_comm, List.takeWhile_eq_self_iff]
        intro x hx
        simp only [decide_eq_true_eq]
        intro hxe
        exact hmem2 (hxe ▸ hx)

/-- C4 counterexample: the rendered string for the predicted byte sequence
72, 73, 0, 7 is not HI: try_on wraps the decoded text in Python repr
quotes. -/
theorem try_on_repr_counterexample :
    try_on_decode [72, 73, 0, 7] ≠ "HI" ∧
    try_on_decode [72, 73, 0, 7] =
      String.mk [Char.ofNat 39, Char.ofNat 72, Char.ofNat 73, Char.ofNat 39] := by
  constructor <;> decide

/-- C4 (amended): try_on truncates each predicted sequence at the first
predicted EOS (keeping the full sequence when no EOS is predicted) — the
kept part contains no EOS and the dropped part is empty or starts with
EOS — and renders the truncation of 72, 73, 0, 7 as the Python repr of
HI, the text HI wrapped in quote characters. -/
theorem try_on_truncation :
    (∀ pred : List Nat,
      eos_sym ∉ trunc_at_eos pred ∧
      ∃ rest, pred = trunc_at_eos pred ++ rest ∧
        (rest = [] ∨ ∃ t, rest = eos_sym :: t)) ∧
    try_on_decode [72, 73, 0, 7] =
      String.mk [Char.ofNat 39, Char.ofNat 72, Char.ofNat 73, Char.ofNat 39] := by
  constructor
  · intro pred
    rw [trunc_at_eos_eq_takeWhile]
    constructor
    · intro hmem
      have := List.mem_takeWhile_imp hmem
      simp at this
    · refine ⟨pred.dropWhile (fun c => c ≠ eos_sym),
        (List.takeWhile_append_dropWhile _ _).symm, ?_⟩
      cases hd : pred.dropWhile (fun c => c ≠ eos_sym) with
      | nil => exact Or.inl rfl
      | cons h t =>
        right
        refine ⟨t, ?_⟩
        have hh : (fun c => decide (c ≠ eos_sym)) h = false :=
          dropWhile_head_false _ pred h t hd
        have : h = eos_sym := by simpa using hh
        rw [this]
  · decide

/-- Sum of per-position loss terms with ignore-index semantics of
nn.CrossEntropyLoss(ignore_index=EMPTY): a position whose target is the
PAD symbol contributes zero; any other position contributes its negative
log-softmax term, kept abstract as the parameter nll. -/
def masked_nll_sum (nll : List ℚ → Nat → ℚ)
    (logits : List (List ℚ)) (tgt : List Nat) : ℚ :=
  ((logits.zip tgt).map
    (fun rt => if rt.2 = pad_sym then 0 else nll rt.1 rt.2)).sum

/-- Number of positions whose target is not PAD: mask.sum() for the mask
src != EMPTY. -/
def non_pad_count (tgt : List Nat) : Nat :=
  (tgt.filter (fun t => t ≠ pad_sym)).length

/-- The criterion of ByteCNN: cross-entropy averaged over the non-ignored
positions (size-average semantics with ignore_index). -/
def cross_entropy_ignore (nll : List ℚ → Nat → ℚ)
    (logits : List (List ℚ)) (tgt : List Nat) : ℚ :=
  masked_nll_sum nll logits tgt / (non_pad_count tgt : ℚ)

/-- Index of the first maximal entry of a logits row, as tgt.data.max(dim=1)
produces per-position argmax indices. -/
def argmax_idx (row : List ℚ) : Nat :=
  (List.range row.length).foldl
    (fun best i =>
      if (row.get? i).getD 0 > (row.get? best).getD 0 then i else best) 0

/-- Per-position predicted byte classes of a logits batch. -/
def predictions (logits : List (List ℚ)) : List Nat := logits.map argmax_idx

/-- Count of masked prediction errors: positions with non-PAD target whose
predicted byte differs from the target, (predictions[mask] != src[mask]).sum(). -/
def err_count (preds : List Nat) (tgt : List Nat) : Nat :=
  ((preds.zip tgt).filter (fun pt => pt.2 ≠ pad_sym ∧ pt.1 ≠ pt.2)).length

/-- Training error rate of train_on: 100 times masked errors over masked
positions. -/
def train_err_rate (preds : List Nat) (tgt : List Nat) : ℚ :=
  100 * (err_count preds tgt : ℚ) / (non_pad_count tgt : ℚ)

/-- C6: appending a region whose targets are all PAD changes neither the
masked loss sum, nor the non-PAD position count, nor the averaged
cross-entropy, nor the masked error count, nor the error rate: PAD-target
positions contribute zero to the loss and are excluded from the
error-rate counts, in training and in evaluation alike. -/
theorem masked_loss_excludes_pad (nll : List ℚ → Nat → ℚ)
    (logitsA logitsB : List (List ℚ)) (predsA predsB : List Nat)
    (tgtA tgtB : List Nat)
    (hlA : logitsA.length = tgtA.length) (hpA : predsA.length = tgtA.length)
    (hB : ∀ t ∈ tgtB, t = pad_sym) :
    masked_nll_sum nll (logitsA ++ logitsB) (tgtA ++ tgtB) =
      masked_nll_sum nll logitsA tgtA ∧
    non_pad_count (tgtA ++ tgtB) = non_pad_count tgtA ∧
    cross_entropy_ignore nll (logitsA ++ logitsB) (tgtA ++ tgtB) =
      cross_entropy_ignore nll logitsA tgtA ∧
    err_count (predsA ++ predsB) (tgtA ++ tgtB) = err_count predsA tgtA ∧
    train_err_rate (predsA ++ predsB) (tgtA ++ tgtB) =
      train_err_rate predsA tgtA := by
  have hsum : masked_nll_sum nll (logitsA ++ logitsB) (tgtA ++ tgtB) =
      masked_nll_sum nll logitsA tgtA := by
    unfold masked_nll_sum
    rw [List.zip_append hlA, List.map_append, List.sum_append]
    have hzero : ((logitsB.zip tgtB).map
        (fun rt => if rt.2 = pad_sym then 0 else nll rt.1 rt.2)).sum = 0 := by
      apply List.sum_eq_zero
      intro x hx
      rcases List.mem_map.1 hx with ⟨⟨row, t⟩, hmem, rfl⟩
      have ht : t ∈ tgtB := (List.of_mem_zip hmem).2
      simp [hB t ht]
    rw [hzero, add_zero]
  have hcount : non_pad_count (tgtA ++ tgtB) = non_pad_count tgtA := by
    unfold non_pad_count
    rw [List.filter_append, List.length_append]
    have : tgtB.filter (fun t => t ≠ pad_sym) = [] := by
      rw [List.filter_eq_nil_iff]
      intro t ht
      simp [hB t ht]
    rw [this]
    simp
  have herr : err_count (predsA ++ predsB) (tgtA ++ tgtB) =
      err_count predsA tgtA := by
    unfold err_count
    rw [List.zip_append hpA, List.filter_append, List.length_append]
    have : (predsB.zip tgtB).filter
        (fun pt => pt.2 ≠ pad_sym ∧ pt.1 ≠ pt.2) = [] := by
      rw [List.filter_eq_nil_iff]
      intro pt hpt
      have ht : pt.2 ∈ tgtB := (List.of_mem_zip hpt).2
      simp [hB pt.2 ht]
    rw [this]
    simp
  refine ⟨hsum, hcount, ?_, herr, ?_⟩
  · unfold cross_entropy_ignore
    rw [hsum, hcount]
  · unfold train_err_rate
    rw [herr, hcount]

theorem masked_loss_excludes_pad_witness :
    ([[(1 : ℚ), 0], [0, 1]].length = [0, 1].length) ∧
    ([0, 1].length = ([0, 1] : List Nat).length) ∧
    (∀ t ∈ ([7, 7] : List Nat), t = pad_sym) ∧
    cross_entropy_ignore (fun _ t => (t : ℚ))
      ([[(1 : ℚ), 0], [0, 1]] ++ [[(5 : ℚ), 5], [5, 5]]) ([0, 1] ++ [7, 7]) =
      cross_entropy_ignore (fun _ t => (t : ℚ)) [[(1 : ℚ), 0], [0, 1]] [0, 1] :=
  ⟨by decide, by decide, by decide,
   (masked_loss_excludes_pad (fun _ t => (t : ℚ))
      [[(1 : ℚ), 0], [0, 1]] [[(5 : ℚ), 5], [5, 5]] [0, 1] [0, 1] [0, 1] [7, 7]
      (by decide) (by decide) (by decide)).2.2.1⟩

/-- Metrics dictionary returned by ByteCNN.eval_on. -/
structure EvalMetrics where
  loss : ℚ
  acc : ℚ
deriving DecidableEq

/-- Accumulator state of the eval_on loop. -/
structure EvalState where
  errs : Nat
  samples : Nat
  total_loss : ℚ
  batch_cnt : Nat
deriving DecidableEq

/-- One iteration of the eval_on loop over a flattened batch src: the
model forward (encoder composed with decoder) is the parameter fwd,
producing per-position logits rows. -/
def eval_step (nll : List ℚ → Nat → ℚ) (fwd : List Nat → List (List ℚ))
    (st : EvalState) (src : List Nat) : EvalState :=
  { errs := st.errs + err_count (predictions (fwd src)) src
    samples := st.samples + non_pad_count src
    total_loss := st.total_loss + cross_entropy_ignore nll (fwd src) src
    batch_cnt := st.batch_cnt + 1 }

/-- ByteCNN.eval_on: accumulate loss, error and sample counts over the
batch stream, then divide; the divisions raise (modelled as none) when
batch_cnt is zero or when the accumulated mask count is zero. -/
def eval_on (nll : List ℚ → Nat → ℚ) (fwd : List Nat → List (List ℚ))
    (batches : List (List Nat)) : Option EvalMetrics :=
  let st := batches.foldl (eval_step nll fwd) ⟨0, 0, 0, 0⟩
  if st.batch_cnt = 0 ∨ st.samples = 0 then none
  else some ⟨st.total_loss / (st.batch_cnt : ℚ),
             100 - 100 * (st.errs : ℚ) / (st.samples : ℚ)⟩

lemma eval_fold_spec (nll : List ℚ → Nat → ℚ) (fwd : List Nat → List (List ℚ))
    (batches : List (List Nat)) (st0 : EvalState) :
    batches.foldl (eval_step nll fwd) st0 =
      ⟨st0.errs + (batches.map (fun b => err_count (predictions (fwd b)) b)).sum,
       st0.samples + (batches.map non_pad_count).sum,
       st0.total_loss + (batches.map (fun b => cross_entropy_ignore nll (fwd b) b)).sum,
       st0.batch_cnt + batches.length⟩ := by
  induction batches generalizing st0 with
  | nil =>
    cases st0
    simp
  | cons b bs ih =>
    rw [List.foldl_cons, ih]
    cases st0
    simp [eval_step, Nat.add_assoc, add_assoc, Nat.add_comm]

/-- C7: eval_on returns the mean of the per-batch criterion losses
together with the aggregate accuracy, 100 minus 100 times the error count
summed over all batches divided by the total non-PAD position count
summed over all batches (sum-then-divide, not a mean of per-batch rates). -/
theorem eval_on_aggregates (nll : List ℚ → Nat → ℚ)
    (fwd : List Nat → List (List ℚ)) (batches : List (List Nat))
    (hne : batches ≠ []) (hs : (batches.map non_pad_count).sum ≠ 0) :
    eval_on nll fwd batches = some
      ⟨(batches.map (fun b => cross_entropy_ignore nll (fwd b) b)).sum /
         (batches.length : ℚ),
       100 - 100 * ((batches.map
           (fun b => err_count (predictions (fwd b)) b)).sum : ℚ) /
         ((batches.map non_pad_count).sum : ℚ)⟩ := by
  unfold eval_on
  rw [eval_fold_spec]
  have hlen : batches.length ≠ 0 := by
    simpa [List.length_eq_zero] using hne
  simp [hlen, hs]

theorem eval_on_aggregates_witness :
    (([[0, 7]] : List (List Nat)) ≠ []) ∧
    ((([[0, 7]] : List (List Nat)).map non_pad_count).sum ≠ 0) ∧
    eval_on (fun _ _ => 1) (fun b => b.map (fun _ => [(0 : ℚ)])) [[0, 7]] = some
      ⟨(([[0, 7]] : List (List Nat)).map (fun b =>
          cross_entropy_ignore (fun _ _ => 1) (b.map (fun _ => [(0 : ℚ)])) b)).sum /
         ((([[0, 7]] : List (List Nat)).length : ℚ)),
       100 - 100 * ((([[0, 7]] : List (List Nat)).map (fun b =>
           err_count (predictions (b.map (fun _ => [(0 : ℚ)]))) b)).sum : ℚ) /
         ((([[0, 7]] : List (List Nat)).map non_pad_count).sum : ℚ)⟩ :=
  ⟨by decide, by decide,
   eval_on_aggregates (fun _ _ => 1) (fun b => b.map (fun _ => [(0 : ℚ)]))
     [[0, 7]] (by decide) (by decide)⟩

/-- C10 counterexample: a non-empty batch stream consisting of a single
all-PAD batch makes eval_on fail (accuracy divides by a zero mask count),
so non-emptiness alone does not make the divisions well-defined. -/
theorem eval_on_all_pad_counterexample :
    (([[pad_sym, pad_sym, pad_sym, pad_sym]] : List (List Nat)) ≠ []) ∧
    eval_on (fun _ _ => 0) (fun b => b.map (fun _ => [(0 : ℚ)]))
      [[pad_sym, pad_sym, pad_sym, pad_sym]] = none := by
  constructor
  · decide
  · decide

/-- C10 (amended): eval_on fails on an empty batch stream, and returns a
metrics dictionary for every non-empty stream that contains at least one
non-PAD target position; a non-empty stream whose targets are all PAD
also fails. -/
theorem eval_on_domain (nll : List ℚ → Nat → ℚ)
    (fwd : List Nat → List (List ℚ)) :
    eval_on nll fwd [] = none ∧
    ∀ batches : List (List Nat), batches ≠ [] →
      (batches.map non_pad_count).sum ≠ 0 →
      (eval_on nll fwd batches).isSome := by
  constructor
  · rfl
  · intro batches hne hs
    unfold eval_on
    rw [eval_fold_spec]
    have hlen : batches.length ≠ 0 := by
      simpa [List.length_eq_zero] using hne
    simp [hlen, hs]

theorem eval_on_domain_witness :
    eval_on (fun _ _ => (1 : ℚ)) (fun b => b.map (fun _ => [(0 : ℚ)])) [] = none ∧
    (([[0, 7]] : List (List Nat)) ≠ []) ∧
    ((([[0, 7]] : List (List Nat)).map non_pad_count).sum ≠ 0) ∧
    (eval_on (fun _ _ => (1 : ℚ)) (fun b => b.map (fun _ => [(0 : ℚ)]))
      [[0, 7]]).isSome :=
  ⟨(eval_on_domain (fun _ _ => (1 : ℚ)) (fun b => b.map (fun _ => [(0 : ℚ)]))).1,
   by decide, by decide,
   (eval_on_domain (fun _ _ => (1 : ℚ)) (fun b => b.map (fun _ => [(0 : ℚ)]))).2
     [[0, 7]] (by decide) (by decide)⟩

/-- Chunk sizes produced by np.array_split: with n elements and k parts,
the first n mod k parts get one element more than n div k. -/
def array_split_sizes (n k : Nat) : List Nat :=
  (List.range k).map (fun i => if i < n % k then n / k + 1 else n / k)

/-- Splitting of a list into consecutive chunks of the given sizes. -/
def split_by_sizes {α : Type} : List Nat → List α → List (List α)
  | [], _ => []
  | s :: rest, xs => xs.take s :: split_by_sizes rest (xs.drop s)

/-- np.array_split of a list into k close-to-equal consecutive chunks. -/
def array_split {α : Type} (xs : List α) (k : Nat) : List (List α) :=
  split_by_sizes (array_split_sizes xs.length k) xs

/-- Length-bucketed dataset of UTF8File: lines maps each padded length to
its rows in insertion order; rng is the random state built from the
constructor seed (np.random.RandomState(rng)), stored but never drawn
from by the iteration code. -/
structure UTF8FileM where
  lines : List (Nat × List (List Nat))
  rng : Nat

/-- UTF8File.iter_epoch.  Evaluation mode splits every bucket in order
into close-to-equal chunks and draws no randomness.  Training mode draws
from the global numpy generator, modelled as the threaded state g with
the drawing functions perm (np.random.permutation: indices of the given
size plus the successor state) and shuf (np.random.shuffle: a reordering
of the given number of positions plus the successor state): each bucket
keeps bsz times (bucket size div bsz) permuted indices split into batches
of bsz, the collected batch list is globally reshuffled, and index lists
are resolved to rows.  The stored per-file rng field is never consulted. -/
def iter_epoch (perm shuf : Nat → Nat → List Nat × Nat) (f : UTF8FileM)
    (bsz : Nat) (evaluation : Bool) (g : Nat) :
    List (List (List Nat)) × Nat :=
  if evaluation then
    (f.lines.flatMap (fun ld => array_split ld.2 (max 1 (ld.2.length / bsz))), g)
  else
    let st := f.lines.foldl
      (fun (acc : List (Nat × List Nat) × Nat) ld =>
        let nb := ld.2.length / bsz
        if nb = 0 then acc
        else
          let pg := perm acc.2 ld.2.length
          let kept := pg.1.take (bsz * nb)
          (acc.1 ++ (split_by_sizes (List.replicate nb bsz) kept).map
            (fun c => (ld.1, c)), pg.2))
      ([], g)
    let sh := shuf st.2 st.1.length
    let shuffled := sh.1.filterMap (fun i => st.1.get? i)
    (shuffled.map (fun li =>
      let data := ((f.lines.find? (fun ld => ld.1 = li.1)).map Prod.snd).getD []
      li.2.filterMap (fun i => data.get? i)), sh.2)

lemma range_sum_ite (k b m : Nat) :
    (((List.range k).map (fun i => if i < m then b + 1 else b)).sum =
      k * b + min m k) := by
  induction k with
  | zero => simp
  | succ k ih =>
    rw [List.range_succ, List.map_append, List.sum_append, ih]
    rw [Nat.succ_mul]
    by_cases hk : k < m
    · simp only [List.map_cons, List.map_nil, if_pos hk, List.sum_cons,
        List.sum_nil]
      omega
    · simp only [List.map_cons, List.map_nil, if_neg hk, List.sum_cons,
        List.sum_nil]
      omega

lemma array_split_sizes_sum (n k : Nat) (hk : 0 < k) :
    (array_split_sizes n k).sum = n := by
  unfold array_split_sizes
  rw [range_sum_ite]
  have hmod : n % k < k := Nat.mod_lt _ hk
  have := Nat.div_add_mod n k
  omega

lemma flatten_split_by_sizes {α : Type} (ss : List Nat) (xs : List α) :
    (split_by_sizes ss xs).flatten = xs.take ss.sum := by
  induction ss generalizing xs with
  | nil => simp [split_by_sizes]
  | cons s rest ih =>
    simp only [split_by_sizes, List.flatten_cons, ih, List.sum_cons]
    rw [List.take_add]

lemma array_split_flatten {α : Type} (xs : List α) (k : Nat) (hk : 0 < k) :
    (array_split xs k).flatten = xs := by
  unfold array_split
  rw [flatten_split_by_sizes, array_split_sizes_sum _ _ hk, List.take_length]

lemma split_by_sizes_length_mem {α : Type} (ss : List Nat) (xs : List α)
    (h : ss.sum ≤ xs.length) :
    ∀ c ∈ split_by_sizes ss xs, ∃ s ∈ ss, c.length = s := by
  induction ss generalizing xs with
  | nil =>
    intro c hc
    simp [split_by_sizes] at hc
  | cons s rest ih =>
    intro c hc
    simp only [List.sum_cons] at h
    rcases List.mem_cons.1 hc with rfl | hc
    · refine ⟨s, List.mem_cons_self s rest, ?_⟩
      rw [List.length_take]
      omega
    · have hdrop : rest.sum ≤ (xs.drop s).length := by
        rw [List.length_drop]
        omega
      rcases ih (xs.drop s) hdrop c hc with ⟨s2, hs2, hl⟩
      exact ⟨s2, List.mem_cons_of_mem _ hs2, hl⟩

lemma array_split_sizes_mem (n k s : Nat) (hs : s ∈ array_split_sizes n k) :
    s = n / k ∨ s = n / k + 1 := by
  unfold array_split_sizes at hs
  rcases List.mem_map.1 hs with ⟨i, _, rfl⟩
  by_cases hi : i < n % k
  · right
    simp [hi]
  · left
    simp [hi]

lemma flatmap_array_split_flatten (lines : List (Nat × List (List Nat))) (bsz : Nat) :
    ((lines.flatMap (fun ld => array_split ld.2 (max 1 (ld.2.length / bsz)))).flatten =
      (lines.map Prod.snd).flatten) := by
  induction lines with
  | nil => simp
  | cons ld rest ih =>
    simp only [List.flatMap_cons, List.map_cons, List.flatten_append,
      List.flatten_cons, ih]
    rw [array_split_flatten _ _ (lt_of_lt_of_le Nat.one_pos (le_max_left 1 _))]

/-- C9: evaluation-mode iteration yields output independent of the global
generator state, the drawing functions and the stored seed state, leaves
the generator untouched, drops no example (the concatenation of all
batches is exactly the concatenation of the buckets in order), and splits
each bucket into chunks whose sizes differ by at most one. -/
theorem eval_iter_deterministic
    (perm shuf perm2 shuf2 : Nat → Nat → List Nat × Nat)
    (lines : List (Nat × List (List Nat))) (r1 r2 bsz g1 g2 : Nat)
    (hbsz : 0 < bsz) :
    (iter_epoch perm shuf ⟨lines, r1⟩ bsz true g1).1 =
      (iter_epoch perm2 shuf2 ⟨lines, r2⟩ bsz true g2).1 ∧
    (iter_epoch perm shuf ⟨lines, r1⟩ bsz true g1).2 = g1 ∧
    ((iter_epoch perm shuf ⟨lines, r1⟩ bsz true g1).1).flatten =
      (lines.map Prod.snd).flatten ∧
    (∀ ld ∈ lines, ∀ c1 ∈ array_split ld.2 (max 1 (ld.2.length / bsz)),
      ∀ c2 ∈ array_split ld.2 (max 1 (ld.2.length / bsz)),
      c1.length ≤ c2.length + 1) := by
  refine ⟨rfl, rfl, ?_, ?_⟩
  · simp only [iter_epoch, if_pos rfl]
    exact flatmap_array_split_flatten lines bsz
  · intro ld _ c1 hc1 c2 hc2
    have hk : 0 < max 1 (ld.2.length / bsz) :=
      lt_of_lt_of_le Nat.one_pos (le_max_left 1 _)
    have hsum : (array_split_sizes ld.2.length (max 1 (ld.2.length / bsz))).sum =
        ld.2.length := array_split_sizes_sum _ _ hk
    have h1 := split_by_sizes_length_mem _ ld.2 (le_of_eq hsum) c1 hc1
    have h2 := split_by_sizes_length_mem _ ld.2 (le_of_eq hsum) c2 hc2
    rcases h1 with ⟨s1, hs1, hl1⟩
    rcases h2 with ⟨s2, hs2, hl2⟩
    rcases array_split_sizes_mem _ _ _ hs1 with h | h <;>
      rcases array_split_sizes_mem _ _ _ hs2 with h2 | h2 <;> omega

theorem eval_iter_deterministic_witness :
    0 < 2 ∧
    ((iter_epoch (fun g _ => ([], g)) (fun g _ => ([], g))
        ⟨[(2, [[1, 2], [3, 4], [5, 6]])], 0⟩ 2 true 0).1 =
      (iter_epoch (fun g n => (List.range n, g + 1)) (fun g n => (List.range n, g + 3))
        ⟨[(2, [[1, 2], [3, 4], [5, 6]])], 9⟩ 2 true 5).1 ∧
    (iter_epoch (fun g _ => ([], g)) (fun g _ => ([], g))
        ⟨[(2, [[1, 2], [3, 4], [5, 6]])], 0⟩ 2 true 0).2 = 0 ∧
    ((iter_epoch (fun g _ => ([], g)) (fun g _ => ([], g))
        ⟨[(2, [[1, 2], [3, 4], [5, 6]])], 0⟩ 2 true 0).1).flatten =
      (([(2, [[1, 2], [3, 4], [5, 6]])] :
          List (Nat × List (List Nat))).map Prod.snd).flatten ∧
    (∀ ld ∈ ([(2, [[1, 2], [3, 4], [5, 6]])] : List (Nat × List (List Nat))),
      ∀ c1 ∈ array_split ld.2 (max 1 (ld.2.length / 2)),
      ∀ c2 ∈ array_split ld.2 (max 1 (ld.2.length / 2)),
      c1.length ≤ c2.length + 1)) :=
  ⟨by decide,
   eval_iter_deterministic (fun g _ => ([], g)) (fun g _ => ([], g))
     (fun g n => (List.range n, g + 1)) (fun g n => (List.range n, g + 3))
     [(2, [[1, 2], [3, 4], [5, 6]])] 0 9 2 0 5 (by decide)⟩

/-- C8: the training-epoch batch order is invariant under the random state
stored from the constructor seed (the code never draws from it), while it
does change with the state of the global numpy generator, so the order is
not a reproducible function of the seed the loader was built with. -/
theorem train_shuffle_uses_global_rng :
    (∀ perm shuf lines r1 r2 bsz ev g,
      iter_epoch perm shuf ⟨lines, r1⟩ bsz ev g =
        iter_epoch perm shuf ⟨lines, r2⟩ bsz ev g) ∧
    (∃ perm shuf lines bsz r g1 g2,
      (iter_epoch perm shuf ⟨lines, r⟩ bsz false g1).1 ≠
        (iter_epoch perm shuf ⟨lines, r⟩ bsz false g2).1) := by
  constructor
  · intro perm shuf lines r1 r2 bsz ev g
    rfl
  · refine ⟨fun g n =>
      (if g = 0 then List.range n else (List.range n).reverse, g + 1),
      fun g n => (List.range n, g), [(1, [[1], [2]])], 1, 0, 0, 1, ?_⟩
    decide

/-- Shape of one sample inside a batched 1-d tensor: channel count and
trailing (sequence) length. -/
structure TShape where
  channels : Nat
  length : Nat
deriving DecidableEq

/-- Shape action of nn.Conv1d(cin, cout, kernel, stride, padding): the
channel count must match cin and the padded length must reach the
kernel; the output length is the usual convolution length formula. -/
def conv1d_shape (cin cout kernel stride padding : Nat) (s : TShape) :
    Option TShape :=
  if s.channels = cin ∧ kernel ≤ s.length + 2 * padding then
    some ⟨cout, (s.length + 2 * padding - kernel) / stride + 1⟩
  else none

/-- Shape action of a Residual block: the sub-layer prototype applied
twice (the interleaved ReLU preserves shape), with the skip addition
requiring the result shape to equal the input shape. -/
def residual_shape {α : Type} [DecidableEq α] (layer : α → Option α)
    (s : α) : Option α :=
  (layer s >>= layer) >>= fun s2 => if s2 = s then some s else none

/-- Option-valued iteration of a shape transform, innermost first. -/
def iterateO {α : Type} (f : α → Option α) : Nat → α → Option α
  | 0, s => some s
  | k + 1, s => f s >>= iterateO f k

/-- Shape action of conv_proto: emsize to emsize channels, kernel 3,
stride 1, padding 1. -/
def byte_conv_shape (emsize : Nat) : TShape → Option TShape :=
  conv1d_shape emsize emsize 3 1 1

/-- Shape action of nn.MaxPool1d(kernel_size=2) with its default stride 2. -/
def maxpool_shape (s : TShape) : Option TShape :=
  if 2 ≤ s.length then some ⟨s.channels, (s.length - 2) / 2 + 1⟩ else none

/-- Shape action of nn.Linear(inF, outF) on flattened per-sample features. -/
def linear_shape (inF outF : Nat) (d : Nat) : Option Nat :=
  if d = inF then some outF else none

/-- Shape action of one application of the encoder recurrent stage: the
residual conv stack of depth n div 2 followed by the halving max pool. -/
def enc_recurrent_shape (n emsize : Nat) (s : TShape) : Option TShape :=
  iterateO (residual_shape (byte_conv_shape emsize)) (n / 2) s >>= maxpool_shape

/-- Shape action of ByteCNNEncoder.forward at recurrence depth r:
embedding plus transpose yields emsize channels over length L, then the
conv residual stack, r - 2 recurrent applications, flattening, and the
linear residual stack whose layers tie the flattened width to
emsize * 4; the result is the latent feature width. -/
def encoder_forward_shape (n emsize L r : Nat) : Option Nat :=
  iterateO (residual_shape (byte_conv_shape emsize)) (n / 2)
      (⟨emsize, L⟩ : TShape) >>= fun s1 =>
  iterateO (enc_recurrent_shape n emsize) (r - 2) s1 >>= fun s2 =>
  iterateO (residual_shape (linear_shape (emsize * 4) (emsize * 4))) (n / 2)
    (s2.channels * s2.length)

/-- Shape action of ExpandConv1d: a convolution doubling the channel
count, then the view and transpose that reinterpret channel pairs as two
consecutive positions, halving channels back and doubling the length;
the view requires an even channel count. -/
def expand_conv_shape (emsize : Nat) (s : TShape) : Option TShape :=
  conv1d_shape emsize (emsize * 2) 3 1 1 s >>= fun s1 =>
  if s1.channels % 2 = 0 then some ⟨s1.channels / 2, 2 * s1.length⟩ else none

/-- Shape action of one application of the decoder recurrent stage:
expanding transform, ReLU, an ordinary convolution, ReLU, then a
residual conv stack of depth n div 2 minus 1. -/
def dec_recurrent_shape (n emsize : Nat) (s : TShape) : Option TShape :=
  expand_conv_shape emsize s >>= byte_conv_shape emsize >>=
    iterateO (residual_shape (byte_conv_shape emsize)) (n / 2 - 1)

/-- Shape action of ByteCNNDecoder.forward at recurrence depth r: the
linear residual stack on the latent width d, the view to emsize channels
over length 4, r - 2 recurrent applications, then the final conv
residual stack producing per-position logits. -/
def decoder_forward_shape (n emsize d r : Nat) : Option TShape :=
  iterateO (residual_shape (linear_shape (emsize * 4) (emsize * 4))) (n / 2)
      d >>= fun d1 =>
  (if d1 = emsize * 4 then some (⟨emsize, 4⟩ : TShape) else none) >>= fun s0 =>
  iterateO (dec_recurrent_shape n emsize) (r - 2) s0 >>=
  iterateO (residual_shape (byte_conv_shape emsize)) (n / 2)

lemma byte_conv_preserves (emsize l : Nat) (hl : 1 ≤ l) :
    byte_conv_shape emsize ⟨emsize, l⟩ = some ⟨emsize, l⟩ := by
  unfold byte_conv_shape conv1d_shape
  dsimp only
  rw [if_pos ⟨rfl, by omega⟩]
  have h3 : (l + 2 * 1 - 3) / 1 + 1 = l := by omega
  rw [h3]

lemma residual_conv_preserves (emsize l : Nat) (hl : 1 ≤ l) :
    residual_shape (byte_conv_shape emsize) (⟨emsize, l⟩ : TShape) =
      some ⟨emsize, l⟩ := by
  unfold residual_shape
  simp [byte_conv_preserves emsize l hl]

lemma iterate_residual_conv (emsize k l : Nat) (hl : 1 ≤ l) :
    iterateO (residual_shape (byte_conv_shape emsize)) k
      (⟨emsize, l⟩ : TShape) = some ⟨emsize, l⟩ := by
  induction k with
  | zero => rfl
  | succ k ih =>
    unfold iterateO
    rw [residual_conv_preserves emsize l hl]
    simpa using ih

lemma maxpool_halves (c m : Nat) (hm : 1 ≤ m) :
    maxpool_shape ⟨c, 2 * m⟩ = some ⟨c, m⟩ := by
  unfold maxpool_shape
  dsimp only
  rw [if_pos (by omega)]
  have h2 : (2 * m - 2) / 2 + 1 = m := by omega
  rw [h2]

lemma enc_recurrent_halves (n emsize m : Nat) (hm : 1 ≤ m) :
    enc_recurrent_shape n emsize ⟨emsize, 2 * m⟩ = some ⟨emsize, m⟩ := by
  unfold enc_recurrent_shape
  rw [iterate_residual_conv emsize (n / 2) (2 * m) (by omega)]
  simpa using maxpool_halves emsize m hm

lemma iterate_enc_recurrent (n emsize k m : Nat) (hm : 1 ≤ m) :
    iterateO (enc_recurrent_shape n emsize) k ⟨emsize, 2 ^ k * m⟩ =
      some ⟨emsize, m⟩ := by
  induction k with
  | zero => simp [iterateO]
  | succ k ih =>
    unfold iterateO
    have hpow : 2 ^ (k + 1) * m = 2 * (2 ^ k * m) := by ring
    have hpos : 1 ≤ 2 ^ k * m := Nat.mul_pos (pow_pos (by norm_num) k) hm
    rw [hpow, enc_recurrent_halves n emsize (2 ^ k * m) hpos]
    simpa using ih

lemma residual_linear_preserves (A : Nat) :
    residual_shape (linear_shape A A) A = some A := by
  unfold residual_shape linear_shape
  simp

lemma iterate_residual_linear (A k : Nat) :
    iterateO (residual_shape (linear_shape A A)) k A = some A := by
  induction k with
  | zero => rfl
  | succ k ih =>
    unfold iterateO
    rw [residual_linear_preserves A]
    simpa using ih

lemma expand_doubles (emsize l : Nat) (hl : 1 ≤ l) :
    expand_conv_shape emsize ⟨emsize, l⟩ = some ⟨emsize, 2 * l⟩ := by
  unfold expand_conv_shape conv1d_shape
  dsimp only
  rw [if_pos ⟨rfl, by omega⟩]
  have h3 : (l + 2 * 1 - 3) / 1 + 1 = l := by omega
  have hmod : emsize * 2 % 2 = 0 := by omega
  have hdiv : emsize * 2 / 2 = emsize := by omega
  simp [h3, hmod, hdiv]
  omega

lemma dec_recurrent_doubles (n emsize l : Nat) (hl : 1 ≤ l) :
    dec_recurrent_shape n emsize ⟨emsize, l⟩ = some ⟨emsize, 2 * l⟩ := by
  unfold dec_recurrent_shape
  rw [expand_doubles emsize l hl]
  have hc : byte_conv_shape emsize ⟨emsize, 2 * l⟩ = some ⟨emsize, 2 * l⟩ :=
    byte_conv_preserves emsize (2 * l) (by omega)
  simp [hc, iterate_residual_conv emsize (n / 2 - 1) (2 * l) (by omega)]

lemma iterate_dec_recurrent (n emsize k m : Nat) (hm : 1 ≤ m) :
    iterateO (dec_recurrent_shape n emsize) k ⟨emsize, m⟩ =
      some ⟨emsize, 2 ^ k * m⟩ := by
  induction k generalizing m with
  | zero => simp [iterateO]
  | succ k ih =>
    unfold iterateO
    rw [dec_recurrent_doubles n emsize m hm]
    have hrec := ih (2 * m) (by omega)
    have heq : 2 ^ k * (2 * m) = 2 ^ (k + 1) * m := by ring
    rw [heq] at hrec
    simpa using hrec

/-- C1: for a batch whose trailing dimension is L = 2 ^ r with r at least
2 (n even, as the constructors assert), the encoder shape computation
succeeds, producing the fixed latent width emsize * 4, and the decoder
shape computation at the same r succeeds and restores trailing dimension
exactly 2 ^ r: the r - 2 length halvings of the encoder recurrent stage
are exactly inverted by the r - 2 length doublings of the decoder
recurrent stage starting from length 4. -/
theorem round_trip_shape (n emsize r : Nat) (hn : n % 2 = 0) (hr : 2 ≤ r) :
    encoder_forward_shape n emsize (2 ^ r) r = some (emsize * 4) ∧
    decoder_forward_shape n emsize (emsize * 4) r = some ⟨emsize, 2 ^ r⟩ := by
  obtain ⟨k, rfl⟩ : ∃ k, r = k + 2 := ⟨r - 2, by omega⟩
  have hkr : k + 2 - 2 = k := by omega
  have hpow4 : (2 : Nat) ^ (k + 2) = 2 ^ k * 4 := by ring
  have hone : 1 ≤ (2 : Nat) ^ (k + 2) := Nat.one_le_pow _ 2 (by norm_num)
  constructor
  · unfold encoder_forward_shape
    rw [hkr]
    have h1 := iterate_residual_conv emsize (n / 2) (2 ^ (k + 2)) hone
    have h2 : iterateO (enc_recurrent_shape n emsize) k
        (⟨emsize, 2 ^ (k + 2)⟩ : TShape) = some ⟨emsize, 4⟩ := by
      have h := iterate_enc_recurrent n emsize k 4 (by norm_num)
      rwa [← hpow4] at h
    simp [h1, h2, iterate_residual_linear]
  · unfold decoder_forward_shape
    rw [hkr]
    have h3 := iterate_residual_linear (emsize * 4) (n / 2)
    have h4 : iterateO (dec_recurrent_shape n emsize) k
        (⟨emsize, 4⟩ : TShape) = some ⟨emsize, 2 ^ (k + 2)⟩ := by
      have h := iterate_dec_recurrent n emsize k 4 (by norm_num)
      rwa [← hpow4] at h
    have h5 := iterate_residual_conv emsize (n / 2) (2 ^ (k + 2)) hone
    simp [h3, h4, h5]

theorem round_trip_shape_witness :
    8 % 2 = 0 ∧ 2 ≤ 3 ∧
    (encoder_forward_shape 8 4 (2 ^ 3) 3 = some (4 * 4) ∧
     decoder_forward_shape 8 4 (4 * 4) 3 = some ⟨4, 2 ^ 3⟩) :=
  ⟨by decide, by decide, round_trip_shape 8 4 3 (by decide) (by decide)⟩
